import Mathlib

/-!
# Verification of the text similarity engine (`src/core/similarity.rs`)

Shallow embedding of the similarity module of `dms-toolkit-rs`.

Modelling conventions:
* Rust `&str` is modelled as `List Char` (`Str`); Rust `str::len()` (UTF-8
  byte count) is `strLen`, computed from `Char.utf8Size`; `str::chars()`
  is the list itself.
* Rust `f64` arithmetic is modelled exactly over `ℚ`.  All numeric
  expressions appearing in the source (ratios of small naturals times 100,
  comparisons against thresholds) are exact in `ℚ`; the one rounding site,
  `(max_length as f64 * 0.8) as usize`, agrees with `max_length * 4 / 5`
  (natural division) for every `max_length < 1000`, the only range in which
  the source evaluates it, and is modelled that way.
* Rust `char::to_lowercase` is modelled by its ASCII restriction
  (`toLowerChar`), and `char::is_whitespace` by `Char.isWhitespace`
  (simple whitespace).  No claim in this development depends on the exotic
  Unicode case/whitespace tables.
* `HashSet<String>` is modelled as `Finset Str`; intersection/union counts
  are `Finset.card` of `∩` / `∪`.
* `slice::windows(n)` panics for `n = 0` in Rust; `windows` below returns
  `[]` there, and every statement about n-grams carries `1 ≤ n`.
* Rayon's parallel `par_iter().enumerate().filter_map().collect()` is
  modelled as a sequential `filterMap` over the enumerated list; order
  independence is proved separately against arbitrary permutations of the
  work list.
-/

/-- Texts are sequences of Unicode characters (Rust `&str` via `chars()`). -/
abbrev Str := List Char

/-- Rust `str::len()`: the UTF-8 byte length of a text. -/
def strLen (s : Str) : Nat := (s.map Char.utf8Size).sum

/-- ASCII restriction of Rust `char::to_lowercase` (see module docstring). -/
def toLowerChar (c : Char) : Char :=
  if 65 ≤ c.toNat ∧ c.toNat ≤ 90 then Char.ofNat (c.toNat + 32) else c

/-- Lowercasing a text, character by character. -/
def lowercase (s : Str) : Str := s.map toLowerChar

/-- Accumulator-based splitter: `splitWSAux rest acc` walks `rest`,
collecting the current (reversed) word in `acc`.  Models Rust
`str::split_whitespace` (no empty tokens). -/
def splitWSAux : Str → Str → List Str
  | [], acc => if acc = [] then [] else [acc.reverse]
  | c :: rest, acc =>
    if c.isWhitespace then
      if acc = [] then splitWSAux rest []
      else acc.reverse :: splitWSAux rest []
    else splitWSAux rest (c :: acc)

/-- Rust `str::split_whitespace`, as a list of words. -/
def splitWS (s : Str) : List Str := splitWSAux s []

/-- `jaccard_similarity` (similarity.rs:127-145): word sets of the
lowercased whitespace-split texts; `|∩| / |∪| * 100`, `0` on empty union. -/
def jaccard_similarity (source target : Str) : ℚ :=
  let source_words : Finset Str := ((splitWS source).map lowercase).toFinset
  let target_words : Finset Str := ((splitWS target).map lowercase).toFinset
  let intersection_size := (source_words ∩ target_words).card
  let union_size := (source_words ∪ target_words).card
  if union_size = 0 then 0
  else ((intersection_size : ℚ) / (union_size : ℚ)) * 100

/-- Sliding windows of width `n` over a list (Rust `slice::windows`);
`n = 0` (a panic in Rust) is modelled as producing no windows. -/
def windows (n : Nat) : Str → List Str
  | [] => []
  | c :: rest =>
    if (c :: rest).length < n ∨ n = 0 then []
    else (c :: rest).take n :: windows n rest

/-- The normalization inside `get_ngrams` (similarity.rs:194-200):
lowercase, drop non-space whitespace, collapse whitespace runs to single
spaces. -/
def normalizeText (text : Str) : Str :=
  let cleaned0 := (lowercase text).filter (fun c => !c.isWhitespace || c = ' ')
  List.intercalate [' '] (splitWS cleaned0)

/-- `get_ngrams` (similarity.rs:193-212): the set of `n`-character windows
of the normalized text; empty if the normalized byte length is `< n`. -/
def get_ngrams (text : Str) (n : Nat) : Finset Str :=
  let cleaned := normalizeText text
  if strLen cleaned < n then ∅
  else (windows n cleaned).toFinset

/-- `ngram_similarity` (similarity.rs:192-225). -/
def ngram_similarity (source target : Str) (n : Nat) : ℚ :=
  let source_ngrams := get_ngrams source n
  let target_ngrams := get_ngrams target n
  let intersection_size := (source_ngrams ∩ target_ngrams).card
  let union_size := (source_ngrams ∪ target_ngrams).card
  if union_size = 0 then 0
  else ((intersection_size : ℚ) / (union_size : ℚ)) * 100

/-- Substitution cost of the Levenshtein DP (similarity.rs:309-313). -/
def subCost (a b : Char) : Nat := if a = b then 0 else 1

/-- Inner loop of the DP (similarity.rs:308-319): given the row character
`a`, the remaining column characters, the matching segment of the previous
row (`p0 :: p1 :: …`, where `p0` is `previous[j-1]` and `p1` is
`previous[j]`), and the value `left = current[j-1]`, produce
`current[j] :: …` for the remaining columns. -/
def rowStep (a : Char) : Str → List Nat → Nat → List Nat
  | b :: ts, p0 :: p1 :: ps, left =>
    let c := min (left + 1) (min (p1 + 1) (p0 + subCost a b))
    c :: rowStep a ts (p1 :: ps) c
  | _, _, _ => []

/-- `row_min` of the source: minimum of a row, seeded by its head. -/
def listMin : List Nat → Nat
  | [] => 0
  | a :: l => l.foldl min a

/-- `[start, start+1, …]` with `n` entries: `(0..cols).collect()` shifted. -/
def natSeq (start : Nat) : Nat → List Nat
  | 0 => []
  | n + 1 => start :: natSeq (start + 1) n

/-- Outer loop of the DP (similarity.rs:304-329): consume the row
characters, building each row from the previous one; with a budget, abort
with `m + 1` as soon as a row minimum exceeds `m`; at the end return the
last entry of the final row (`previous[cols - 1]`). -/
def levRows (t : Str) (md : Option Nat) : Str → List Nat → Nat → Nat
  | [], prev, _ => prev.getLastD 0
  | a :: s, prev, i =>
    let cur := i :: rowStep a t prev i
    match md with
    | some m => if m < listMin cur then m + 1 else levRows t md s cur (i + 1)
    | none => levRows t md s cur (i + 1)

/-- `levenshtein_distance` (similarity.rs:274-332): empty-string shortcuts,
then the two-row DP with the shorter string defining the rows
(`use_swap`), starting from row `0 = [0, 1, …, cols-1]`. -/
def levenshtein_distance (source target : Str) (max_distance : Option Nat) : Nat :=
  if source = [] then target.length
  else if target = [] then source.length
  else if source.length < target.length then
    levRows target max_distance source (natSeq 0 (target.length + 1)) 1
  else
    levRows source max_distance target (natSeq 0 (source.length + 1)) 1

/-- The `if let Some(max_dist) = max_distance` guard of
`levenshtein_similarity` (similarity.rs:376-380): a supplied budget was
exceeded by the computed distance. -/
def exceedsBudget (md : Option Nat) (d : Nat) : Bool :=
  match md with
  | some m => decide (m < d)
  | none => false

/-- `levenshtein_similarity` (similarity.rs:368-383): byte-length
denominator, `100` when both texts are empty, `0` when a supplied budget is
exceeded, else `(max_length - distance) / max_length * 100`. -/
def levenshtein_similarity (source target : Str) (max_distance : Option Nat) : ℚ :=
  let max_length := max (strLen source) (strLen target)
  if max_length = 0 then 100
  else
    let distance := levenshtein_distance source target max_distance
    if exceedsBudget max_distance distance then 0
    else (((max_length - distance : Nat) : ℚ) / (max_length : ℚ)) * 100

/-- `hybrid_similarity` (similarity.rs:433-457): Jaccard fast path below
20, budgeted Levenshtein for byte lengths `< 1000` (budget
`⌊0.8 · max_length⌋`, fallback `20`), trigram similarity otherwise. -/
def hybrid_similarity (source target : Str) : ℚ :=
  let jaccard_score := jaccard_similarity source target
  if jaccard_score < 20 then jaccard_score
  else if strLen source < 1000 ∧ strLen target < 1000 then
    let max_length := max (strLen source) (strLen target)
    let max_allowed_distance := max_length * 4 / 5
    let distance := levenshtein_distance source target (some max_allowed_distance)
    if max_allowed_distance < distance then 20
    else (((max_length - distance : Nat) : ℚ) / (max_length : ℚ)) * 100
  else ngram_similarity source target 3

/-- `SimilarityMethod` (similarity.rs:14-45). -/
inductive SimilarityMethod
  | Jaccard
  | Ngram
  | Levenshtein
  | Hybrid
deriving DecidableEq

/-- `calculate_similarity` (similarity.rs:484-491). -/
def calculate_similarity (source target : Str) (method : SimilarityMethod) : ℚ :=
  match method with
  | .Jaccard => jaccard_similarity source target
  | .Ngram => ngram_similarity source target 3
  | .Levenshtein => levenshtein_similarity source target none
  | .Hybrid => hybrid_similarity source target

/-- `pre_filter_by_length` (similarity.rs:80-87): relative byte-length gap
at most `100 - threshold`, with the empty/empty pair passing. -/
def pre_filter_by_length (source target : Str) (threshold : ℚ) : Bool :=
  let difference : Nat := ((strLen source : ℤ) - (strLen target : ℤ)).natAbs
  let maxLen := max (strLen source) (strLen target)
  if maxLen = 0 then true
  else decide (((difference : ℚ) / (maxLen : ℚ)) * 100 ≤ 100 - threshold)

/-- The per-reference unit of work of `compare_with_documents`
(similarity.rs:559-572): pre-filter, score, threshold gate. -/
def comparisonStep (source_text : Str) (method : SimilarityMethod) (threshold : ℚ)
    (p : Nat × Str) : Option (Nat × ℚ) :=
  if pre_filter_by_length source_text p.2 threshold then
    let similarity := calculate_similarity source_text p.2 method
    if threshold ≤ similarity then some (p.1, similarity) else none
  else none

/-- `compare_with_documents` (similarity.rs:550-574): fan the step over the
enumerated reference list and collect the hits. -/
def compare_with_documents (source_text : Str) (target_texts : List Str)
    (method : SimilarityMethod) (threshold : ℚ) : List (Nat × ℚ) :=
  (target_texts.enum).filterMap (comparisonStep source_text method threshold)

/-!
## Specification-level Levenshtein distance

`levTab s t i j` is the classical Wagner–Fischer table: the Levenshtein
distance (unit-cost insertions, deletions, substitutions over Unicode
characters) between the first `i` characters of `s` and the first `j`
characters of `t`.  `levSpec` is the distance between the full texts.
The DP of the source is proved below to compute exactly this table.
-/

/-- One row of the Wagner–Fischer recurrence, as a function of the
previous row. -/
def levTabRow (s t : Str) (i : Nat) (prev : Nat → Nat) : Nat → Nat
  | 0 => i + 1
  | j + 1 =>
    min (prev (j + 1) + 1)
      (min (levTabRow s t i prev j + 1)
        (prev j + subCost (s.getD i ' ') (t.getD j ' ')))

/-- The Wagner–Fischer table of `s` and `t`. -/
def levTab (s t : Str) : Nat → Nat → Nat
  | 0 => fun j => j
  | i + 1 => levTabRow s t i (levTab s t i)

/-- The Levenshtein distance between `s` and `t` over Unicode characters. -/
def levSpec (s t : Str) : Nat := levTab s t s.length t.length

theorem levTab_zero_left (s t : Str) (j : Nat) : levTab s t 0 j = j := rfl

theorem levTab_zero_right (s t : Str) (i : Nat) : levTab s t i 0 = i := by
  cases i <;> rfl

theorem levTab_succ_succ (s t : Str) (i j : Nat) :
    levTab s t (i + 1) (j + 1) =
      min (levTab s t i (j + 1) + 1)
        (min (levTab s t (i + 1) j + 1)
          (levTab s t i j + subCost (s.getD i ' ') (t.getD j ' '))) := rfl

theorem subCost_self (a : Char) : subCost a a = 0 := by simp [subCost]

theorem subCost_le_one (a b : Char) : subCost a b ≤ 1 := by
  unfold subCost; split <;> omega

theorem subCost_comm (a b : Char) : subCost a b = subCost b a := by
  unfold subCost
  simp only [eq_comm]

theorem levTab_self (a : Str) (i : Nat) : levTab a a i i = 0 := by
  induction i with
  | zero => rfl
  | succ i ih =>
    rw [levTab_succ_succ, ih, subCost_self]
    omega

theorem levTab_le (s t : Str) : ∀ i j, levTab s t i j ≤ max i j := by
  intro i
  induction i with
  | zero => intro j; rw [levTab_zero_left]; omega
  | succ i ih =>
    intro j
    induction j with
    | zero => rw [levTab_zero_right]; omega
    | succ j ihj =>
      rw [levTab_succ_succ]
      have h1 := ih (j + 1)
      have h2 := ih j
      have h3 := subCost_le_one (s.getD i ' ') (t.getD j ' ')
      omega

theorem levTab_ge (s t : Str) :
    ∀ i j, i - j ≤ levTab s t i j ∧ j - i ≤ levTab s t i j := by
  intro i
  induction i with
  | zero => intro j; rw [levTab_zero_left]; omega
  | succ i ih =>
    intro j
    induction j with
    | zero => rw [levTab_zero_right]; omega
    | succ j ihj =>
      rw [levTab_succ_succ]
      have h1 := ih (j + 1)
      have h2 := ih j
      omega

theorem levTab_comm (s t : Str) : ∀ i j, levTab s t i j = levTab t s j i := by
  intro i
  induction i with
  | zero => intro j; rw [levTab_zero_left, levTab_zero_right]
  | succ i ih =>
    intro j
    induction j with
    | zero => rw [levTab_zero_left, levTab_zero_right]
    | succ j ihj =>
      rw [levTab_succ_succ, levTab_succ_succ, subCost_comm, ih (j + 1), ih j, ihj]
      omega

/-- Minimum of the entries `levTab s t i 0 … levTab s t i J` of row `i`. -/
def rowMinTab (s t : Str) (i : Nat) : Nat → Nat
  | 0 => levTab s t i 0
  | j + 1 => min (rowMinTab s t i j) (levTab s t i (j + 1))

theorem rowMinTab_le (s t : Str) (i : Nat) :
    ∀ J j, j ≤ J → rowMinTab s t i J ≤ levTab s t i j := by
  intro J
  induction J with
  | zero => intro j hj; interval_cases j; exact Nat.le_refl _
  | succ J ih =>
    intro j hj
    rcases Nat.lt_or_ge j (J + 1) with h | h
    · exact le_trans (min_le_left _ _) (ih j (by omega))
    · have : j = J + 1 := by omega
      subst this
      exact min_le_right _ _

theorem rowMinTab_mem (s t : Str) (i : Nat) :
    ∀ J, ∃ j, j ≤ J ∧ rowMinTab s t i J = levTab s t i j := by
  intro J
  induction J with
  | zero => exact ⟨0, Nat.le_refl _, rfl⟩
  | succ J ih =>
    obtain ⟨j, hj, hval⟩ := ih
    rcases Nat.le_total (rowMinTab s t i J) (levTab s t i (J + 1)) with h | h
    · exact ⟨j, by omega, by simp only [rowMinTab]; omega⟩
    · exact ⟨J + 1, Nat.le_refl _, by simp only [rowMinTab]; omega⟩

/-- Every entry of every later row dominates the minimum of an earlier
row: the key fact behind safety of the early-termination check. -/
theorem rowMinTab_le_later (s t : Str) (i : Nat) :
    ∀ k j2, j2 ≤ t.length → rowMinTab s t i t.length ≤ levTab s t (i + k) j2 := by
  intro k
  induction k with
  | zero => intro j2 hj2; exact rowMinTab_le s t i _ j2 hj2
  | succ k ih =>
    intro j2 hj2
    induction j2 with
    | zero =>
      rw [levTab_zero_right]
      have h0 := rowMinTab_le s t i t.length 0 (Nat.zero_le _)
      rw [levTab_zero_right] at h0
      omega
    | succ j2 ihj =>
      have hstep : i + (k + 1) = (i + k) + 1 := by omega
      rw [hstep, levTab_succ_succ]
      have h1 := ih (j2 + 1) hj2
      have h2 := ih j2 (by omega)
      have h3 := ihj (by omega)
      rw [hstep] at h3
      omega

/-! ## Correctness of the two-row DP against `levTab` -/

theorem natSeq_map_levTab_zero (s t : Str) :
    ∀ n a, (natSeq a n).map (levTab s t 0) = natSeq a n := by
  intro n
  induction n with
  | zero => intro a; rfl
  | succ n ih => intro a; simp only [natSeq, List.map_cons, levTab_zero_left, ih]

theorem mem_natSeq : ∀ n a x, x ∈ natSeq a n ↔ a ≤ x ∧ x < a + n := by
  intro n
  induction n with
  | zero => intro a x; simp [natSeq]
  | succ n ih =>
    intro a x
    simp only [natSeq, List.mem_cons, ih]
    omega

theorem getLastD_natSeq_map (f : Nat → Nat) :
    ∀ n a d, ((natSeq a (n + 1)).map f).getLastD d = f (a + n) := by
  intro n
  induction n with
  | zero => intro a d; rfl
  | succ n ih =>
    intro a d
    have step : natSeq a (n + 2) = a :: natSeq (a + 1) (n + 1) := rfl
    rw [step, List.map_cons, List.getLastD_cons, ih (a + 1) (f a)]
    congr 1
    omega

theorem foldl_min_le (l : List Nat) :
    ∀ acc, l.foldl min acc ≤ acc ∧ ∀ b ∈ l, l.foldl min acc ≤ b := by
  induction l with
  | nil => intro acc; simp
  | cons c l ih =>
    intro acc
    simp only [List.foldl_cons, List.mem_cons]
    obtain ⟨h1, h2⟩ := ih (min acc c)
    refine ⟨le_trans h1 (by omega), ?_⟩
    rintro b (rfl | hb)
    · exact le_trans h1 (by omega)
    · exact h2 b hb

theorem listMin_le_of_mem {l : List Nat} {b : Nat} (hb : b ∈ l) : listMin l ≤ b := by
  cases l with
  | nil => cases hb
  | cons a l =>
    rcases List.mem_cons.1 hb with rfl | hb'
    · exact (foldl_min_le l b).1
    · exact (foldl_min_le l a).2 b hb'

/-- The inner DP loop computes row `k + 1` of the Wagner–Fischer table
from row `k`, columns `j + 1` onward. -/
theorem rowStep_eq (s t : Str) (k : Nat) :
    ∀ n j, j ≤ t.length → t.length - j = n →
    rowStep (s.getD k ' ') (t.drop j)
        ((natSeq j (t.length + 1 - j)).map (levTab s t k))
        (levTab s t (k + 1) j)
      = (natSeq (j + 1) (t.length - j)).map (levTab s t (k + 1)) := by
  intro n
  induction n with
  | zero =>
    intro j hj hn
    have hjl : j = t.length := by omega
    subst hjl
    rw [List.drop_length, Nat.sub_self]
    simp [rowStep, natSeq]
  | succ n ih =>
    intro j hj hn
    have hjlt : j < t.length := by omega
    have hseg : t.length + 1 - j = n + 2 := by omega
    rw [List.drop_eq_getElem_cons hjlt, hseg, hn]
    simp only [natSeq, List.map_cons, rowStep]
    have hcost : t.getD j ' ' = t[j] := by
      simp [List.getD_eq_getElem?_getD, List.getElem?_eq_getElem hjlt]
    have hcell :
        min (levTab s t (k + 1) j + 1)
          (min (levTab s t k (j + 1) + 1)
            (levTab s t k j + subCost (s.getD k ' ') t[j]))
        = levTab s t (k + 1) (j + 1) := by
      rw [levTab_succ_succ, ← hcost]
      omega
    rw [hcell]
    have hrec := ih (j + 1) (by omega) (by omega)
    have e1 : t.length + 1 - (j + 1) = n + 1 := by omega
    have e2 : t.length - (j + 1) = n := by omega
    rw [e1, e2] at hrec
    simp only [natSeq, List.map_cons] at hrec
    rw [hrec]

/-- The current row built by the outer loop is row `k + 1` of the table. -/
theorem cur_row_eq (s t : Str) (k : Nat) :
    (k + 1) :: rowStep (s.getD k ' ') t
        ((natSeq 0 (t.length + 1)).map (levTab s t k)) (k + 1)
      = (natSeq 0 (t.length + 1)).map (levTab s t (k + 1)) := by
  have h0 : (natSeq 0 (t.length + 1)).map (levTab s t k)
      = (natSeq 0 (t.length + 1 - 0)).map (levTab s t k) := by
    congr 1
  have hleft : (k + 1) = levTab s t (k + 1) 0 := (levTab_zero_right s t (k + 1)).symm
  have hstep := rowStep_eq s t k t.length 0 (Nat.zero_le _) (by omega)
  rw [List.drop_zero] at hstep
  calc (k + 1) :: rowStep (s.getD k ' ') t
          ((natSeq 0 (t.length + 1)).map (levTab s t k)) (k + 1)
      = (k + 1) :: rowStep (s.getD k ' ') t
          ((natSeq 0 (t.length + 1 - 0)).map (levTab s t k)) (levTab s t (k + 1) 0) := by
        rw [← h0, ← hleft]
    _ = (k + 1) :: (natSeq 1 (t.length - 0)).map (levTab s t (k + 1)) := by rw [hstep]
    _ = (natSeq 0 (t.length + 1)).map (levTab s t (k + 1)) := by
        have : natSeq 0 (t.length + 1) = 0 :: natSeq 1 t.length := rfl
        rw [this, List.map_cons, levTab_zero_right, Nat.sub_zero]


/-- Invariant of the outer loop: starting from row `k` with an acceptable
budget (or none), the loop returns the bottom-right table entry. -/
theorem levRows_inv (s t : Str) (md : Option Nat)
    (hmd : ∀ m, md = some m → levTab s t s.length t.length ≤ m) :
    ∀ (rest : Str) (k : Nat), rest = s.drop k → k ≤ s.length →
    levRows t md rest ((natSeq 0 (t.length + 1)).map (levTab s t k)) (k + 1)
      = levTab s t s.length t.length := by
  intro rest
  induction rest generalizing md with
  | nil =>
    intro k hrest hk
    have hkl : k = s.length := by
      have := List.drop_eq_nil_iff.1 hrest.symm
      omega
    subst hkl
    cases md with
    | none =>
      show ((natSeq 0 (t.length + 1)).map (levTab s t s.length)).getLastD 0 = _
      rw [getLastD_natSeq_map, Nat.zero_add]
    | some m =>
      show ((natSeq 0 (t.length + 1)).map (levTab s t s.length)).getLastD 0 = _
      rw [getLastD_natSeq_map, Nat.zero_add]
  | cons a rest ih =>
    intro k hrest hk
    have hklt : k < s.length := by
      by_contra hc
      rw [List.drop_eq_nil_of_le (by omega)] at hrest
      exact List.cons_ne_nil a rest hrest
    have hdrop := List.drop_eq_getElem_cons hklt
    rw [← hrest] at hdrop
    injection hdrop with ha hrest'
    have haD : a = s.getD k ' ' := by
      rw [ha]
      simp [List.getD_eq_getElem?_getD, List.getElem?_eq_getElem hklt]
    have hcur : (k + 1) :: rowStep a t
        ((natSeq 0 (t.length + 1)).map (levTab s t k)) (k + 1)
        = (natSeq 0 (t.length + 1)).map (levTab s t (k + 1)) := by
      rw [haD]
      exact cur_row_eq s t k
    cases md with
    | none =>
      simp only [levRows]
      rw [hcur]
      exact ih none (by intro m h; cases h) (k + 1) hrest' (by omega)
    | some m =>
      have hm := hmd m rfl
      have hmin : listMin ((k + 1) :: rowStep a t
          ((natSeq 0 (t.length + 1)).map (levTab s t k)) (k + 1)) ≤ m := by
        rw [hcur]
        obtain ⟨j, hj, hval⟩ := rowMinTab_mem s t (k + 1) t.length
        have hmem : levTab s t (k + 1) j ∈
            (natSeq 0 (t.length + 1)).map (levTab s t (k + 1)) :=
          List.mem_map_of_mem _ ((mem_natSeq (t.length + 1) 0 j).2 (by omega))
        have hle := listMin_le_of_mem hmem
        have hlater := rowMinTab_le_later s t (k + 1) (s.length - (k + 1)) t.length
          (Nat.le_refl _)
        have hfin : (k + 1) + (s.length - (k + 1)) = s.length := by omega
        rw [hfin] at hlater
        omega
      have hcond : ¬ m < listMin ((k + 1) :: rowStep a t
          ((natSeq 0 (t.length + 1)).map (levTab s t k)) (k + 1)) := by omega
      simp only [levRows]
      rw [if_neg hcond, hcur]
      exact ih (some m) (by intro m' hm'; injection hm' with h'; omega) (k + 1) hrest'
        (by omega)

/-- The unbudgeted DP of the source computes the Levenshtein distance. -/
theorem levenshtein_distance_none (s t : Str) :
    levenshtein_distance s t none = levSpec s t := by
  unfold levenshtein_distance levSpec
  split
  · rename_i hs
    subst hs
    simp only [List.length_nil, levTab_zero_left]
  · split
    · rename_i ht
      subst ht
      simp only [List.length_nil, levTab_zero_right]
    · split
      · have h0 := levRows_inv s t none (by intro m h; cases h) (s.drop 0) 0 rfl
          (Nat.zero_le _)
        rw [List.drop_zero, natSeq_map_levTab_zero] at h0
        exact h0
      · have h0 := levRows_inv t s none (by intro m h; cases h) (t.drop 0) 0 rfl
          (Nat.zero_le _)
        rw [List.drop_zero, natSeq_map_levTab_zero] at h0
        rw [h0, levTab_comm]

/-- With a budget at least the true distance, the budgeted DP is exact. -/
theorem levenshtein_distance_budget_le (s t : Str) (m : Nat)
    (h : levSpec s t ≤ m) :
    levenshtein_distance s t (some m) = levSpec s t := by
  unfold levenshtein_distance
  unfold levSpec at h ⊢
  split
  · rename_i hs
    subst hs
    simp only [List.length_nil, levTab_zero_left]
  · split
    · rename_i ht
      subst ht
      simp only [List.length_nil, levTab_zero_right]
    · split
      · have h0 := levRows_inv s t (some m)
          (by intro m' hm'; injection hm' with h'; omega) (s.drop 0) 0 rfl
          (Nat.zero_le _)
        rw [List.drop_zero, natSeq_map_levTab_zero] at h0
        exact h0
      · have hcomm : levTab t s t.length s.length = levTab s t s.length t.length :=
          (levTab_comm s t s.length t.length).symm
        have h0 := levRows_inv t s (some m)
          (by intro m' hm'; injection hm' with h'; omega) (t.drop 0) 0 rfl
          (Nat.zero_le _)
        rw [List.drop_zero, natSeq_map_levTab_zero] at h0
        rw [h0, levTab_comm]

/-- A budgeted loop run either agrees with the unbudgeted run or returns
the `m + 1` sentinel of the early-termination path. -/
theorem levRows_budget_or (t : Str) (m : Nat) :
    ∀ (s : Str) (prev : List Nat) (i : Nat),
      levRows t (some m) s prev i = levRows t none s prev i ∨
        levRows t (some m) s prev i = m + 1 := by
  intro s
  induction s with
  | nil => intro prev i; left; rfl
  | cons a s ih =>
    intro prev i
    simp only [levRows]
    split
    · right; rfl
    · exact ih (i :: rowStep a t prev i) (i + 1)

/-- Dichotomy for the budgeted `levenshtein_distance`. -/
theorem levenshtein_distance_budget_or (s t : Str) (m : Nat) :
    levenshtein_distance s t (some m) = levenshtein_distance s t none ∨
      levenshtein_distance s t (some m) = m + 1 := by
  unfold levenshtein_distance
  split
  · left; rfl
  · split
    · left; rfl
    · split
      · exact levRows_budget_or t m s _ 1
      · exact levRows_budget_or s m t _ 1

theorem levSpec_le_max (s t : Str) : levSpec s t ≤ max s.length t.length :=
  levTab_le s t s.length t.length

theorem levSpec_ge_sub (s t : Str) :
    s.length - t.length ≤ levSpec s t ∧ t.length - s.length ≤ levSpec s t :=
  levTab_ge s t s.length t.length

theorem levSpec_self (a : Str) : levSpec a a = 0 := levTab_self a a.length

/-! ## Byte lengths, splitting and basic text lemmas -/

theorem strLen_nil : strLen [] = 0 := rfl

theorem strLen_cons (c : Char) (s : Str) :
    strLen (c :: s) = c.utf8Size + strLen s := by
  simp [strLen]

theorem length_le_strLen (s : Str) : s.length ≤ strLen s := by
  induction s with
  | nil => simp [strLen]
  | cons c s ih =>
    rw [strLen_cons]
    have := c.utf8Size_pos
    simp only [List.length_cons]
    omega

theorem strLen_eq_zero {s : Str} : strLen s = 0 ↔ s = [] := by
  cases s with
  | nil => simp [strLen]
  | cons c s =>
    rw [strLen_cons]
    have := c.utf8Size_pos
    simp only [iff_iff_implies_and_implies]
    constructor
    · intro h; omega
    · intro h; cases h

theorem strLen_pos {s : Str} (h : s ≠ []) : 0 < strLen s := by
  rcases Nat.eq_zero_or_pos (strLen s) with h0 | h0
  · exact absurd (strLen_eq_zero.1 h0) h
  · exact h0

theorem strLen_of_ascii {s : Str} (h : ∀ c ∈ s, c.utf8Size = 1) :
    strLen s = s.length := by
  induction s with
  | nil => rfl
  | cons c s ih =>
    rw [strLen_cons, h c (List.mem_cons_self c s),
      ih (fun d hd => h d (List.mem_cons_of_mem c hd))]
    simp only [List.length_cons]
    omega

theorem toLowerChar_of_ws {c : Char} (h : c.isWhitespace = true) :
    toLowerChar c = c := by
  simp only [Char.isWhitespace, Bool.or_eq_true, decide_eq_true_eq] at h
  rcases h with ((h | h) | h) | h <;> subst h <;> decide

theorem splitWSAux_ne_nil_of_acc :
    ∀ (l : Str) (acc : Str), acc ≠ [] → splitWSAux l acc ≠ [] := by
  intro l
  induction l with
  | nil =>
    intro acc h
    simp only [splitWSAux, if_neg h]
    exact List.cons_ne_nil _ _
  | cons c rest ih =>
    intro acc h
    simp only [splitWSAux, if_neg h]
    split
    · exact List.cons_ne_nil _ _
    · exact ih (c :: acc) (List.cons_ne_nil _ _)

theorem splitWS_ne_nil {s : Str} {c : Char} (hc : c ∈ s)
    (hw : c.isWhitespace = false) : splitWS s ≠ [] := by
  unfold splitWS
  induction s with
  | nil => cases hc
  | cons d rest ih =>
    simp only [splitWSAux]
    rcases List.mem_cons.1 hc with rfl | hmem
    · rw [if_neg (by simp [hw])]
      exact splitWSAux_ne_nil_of_acc rest [c] (List.cons_ne_nil _ _)
    · split
      · simp only [if_true]
        exact ih hmem
      · exact splitWSAux_ne_nil_of_acc rest [d] (List.cons_ne_nil _ _)

theorem splitWSAux_all_ws :
    ∀ (l : Str), (∀ c ∈ l, c.isWhitespace = true) → splitWSAux l [] = [] := by
  intro l
  induction l with
  | nil => intro _; rfl
  | cons c rest ih =>
    intro h
    simp only [splitWSAux, h c (List.mem_cons_self c rest), if_pos rfl, if_true]
    exact ih (fun d hd => h d (List.mem_cons_of_mem c hd))

/-- A nonempty normalized text forces a non-whitespace character in the
original text. -/
theorem exists_nonws_of_normalize {a : Str} (h : normalizeText a ≠ []) :
    ∃ c ∈ a, c.isWhitespace = false := by
  by_contra hno
  apply h
  simp only [normalizeText]
  have hsplit : splitWS ((lowercase a).filter
      (fun c => !c.isWhitespace || c = ' ')) = [] := by
    unfold splitWS
    apply splitWSAux_all_ws
    intro c hcmem
    have hc1 := List.mem_filter.1 hcmem
    obtain ⟨c0, hc0, hmap⟩ := List.mem_map.1 hc1.1
    by_contra hws
    have hws' : c.isWhitespace = false := by
      cases hv : c.isWhitespace
      · rfl
      · exact absurd hv hws
    have hc0ws : c0.isWhitespace = false := by
      cases hv : c0.isWhitespace
      · rfl
      · rw [← hmap, toLowerChar_of_ws hv] at hws'
        rw [hv] at hws'
        cases hws'
    exact hno ⟨c0, hc0, hc0ws⟩
  rw [hsplit]
  rfl

/-! ## Range and self-similarity lemmas for the scorers -/

/-- The intersection-over-union ratio, as used by the word and n-gram
scorers, lies in `[0, 100]`. -/
theorem ratioQ_bounds {i u : Nat} (h : i ≤ u) :
    0 ≤ (if u = 0 then (0 : ℚ) else ((i : ℚ) / (u : ℚ)) * 100) ∧
      (if u = 0 then (0 : ℚ) else ((i : ℚ) / (u : ℚ)) * 100) ≤ 100 := by
  split
  · norm_num
  · rename_i hu
    have hu' : (0 : ℚ) < (u : ℚ) := by
      have : 0 < u := Nat.pos_of_ne_zero hu
      exact_mod_cast this
    constructor
    · positivity
    · have h1 : (i : ℚ) / (u : ℚ) ≤ 1 := by
        rw [div_le_one hu']
        exact_mod_cast h
      nlinarith

theorem jaccard_bounds (s t : Str) :
    0 ≤ jaccard_similarity s t ∧ jaccard_similarity s t ≤ 100 := by
  unfold jaccard_similarity
  apply ratioQ_bounds
  exact Finset.card_le_card (Finset.inter_subset_left.trans Finset.subset_union_left)

theorem ngram_bounds (s t : Str) (n : Nat) :
    0 ≤ ngram_similarity s t n ∧ ngram_similarity s t n ≤ 100 := by
  unfold ngram_similarity
  apply ratioQ_bounds
  exact Finset.card_le_card (Finset.inter_subset_left.trans Finset.subset_union_left)

theorem jaccard_self {a : Str} (h : splitWS a ≠ []) :
    jaccard_similarity a a = 100 := by
  unfold jaccard_similarity
  simp only [Finset.inter_self, Finset.union_self]
  have hne : ((splitWS a).map lowercase).toFinset ≠ ∅ := by
    rw [Ne, List.toFinset_eq_empty_iff]
    intro hmap
    exact h (List.map_eq_nil_iff.1 hmap)
  have hpos : 0 < ((splitWS a).map lowercase).toFinset.card :=
    Finset.card_pos.2 (Finset.nonempty_iff_ne_empty.2 hne)
  rw [if_neg (by omega)]
  rw [div_self (by
    exact_mod_cast (by omega : ((splitWS a).map lowercase).toFinset.card ≠ 0))]
  norm_num

theorem windows_eq_nil_of_short {n : Nat} {l : Str} (h : l.length < n) :
    windows n l = [] := by
  cases l with
  | nil => rfl
  | cons c rest =>
    unfold windows
    rw [if_pos (Or.inl h)]

theorem windows_ne_nil {n : Nat} {l : Str} (h1 : 1 ≤ n) (h2 : n ≤ l.length) :
    windows n l ≠ [] := by
  cases l with
  | nil => simp at h2; omega
  | cons c rest =>
    unfold windows
    rw [if_neg (by push_neg; exact ⟨by omega, by omega⟩)]
    exact List.cons_ne_nil _ _

theorem get_ngrams_empty_of_short {s : Str} {n : Nat}
    (h : (normalizeText s).length < n) : get_ngrams s n = ∅ := by
  simp only [get_ngrams]
  split
  · rfl
  · rw [windows_eq_nil_of_short h]
    rfl

theorem get_ngrams_ne_empty {s : Str} {n : Nat} (h1 : 1 ≤ n)
    (h2 : n ≤ (normalizeText s).length) : get_ngrams s n ≠ ∅ := by
  unfold get_ngrams
  rw [if_neg (by have := length_le_strLen (normalizeText s); omega)]
  rw [Ne, List.toFinset_eq_empty_iff]
  exact windows_ne_nil h1 h2

theorem ngram_self {a : Str} {n : Nat} (h1 : 1 ≤ n)
    (h2 : n ≤ (normalizeText a).length) : ngram_similarity a a n = 100 := by
  unfold ngram_similarity
  simp only [Finset.inter_self, Finset.union_self]
  have hpos : 0 < (get_ngrams a n).card :=
    Finset.card_pos.2 (Finset.nonempty_iff_ne_empty.2 (get_ngrams_ne_empty h1 h2))
  rw [if_neg (by omega)]
  rw [div_self (by exact_mod_cast (by omega : (get_ngrams a n).card ≠ 0))]
  norm_num

theorem ngram_zero_of_short {s t : Str} {n : Nat}
    (h : (normalizeText s).length < n ∨ (normalizeText t).length < n) :
    ngram_similarity s t n = 0 := by
  simp only [ngram_similarity]
  have hint : (get_ngrams s n ∩ get_ngrams t n).card = 0 := by
    rcases h with h | h
    · rw [get_ngrams_empty_of_short h, Finset.empty_inter, Finset.card_empty]
    · rw [get_ngrams_empty_of_short h, Finset.inter_empty, Finset.card_empty]
  rw [hint]
  split
  · rfl
  · rw [Nat.cast_zero, zero_div, zero_mul]

/-- Bounds for the percentage-conversion formula of the Levenshtein and
hybrid scorers. -/
theorem percentQ_bounds (x mx : Nat) (hmx : mx ≠ 0) :
    0 ≤ ((mx - x : Nat) : ℚ) / (mx : ℚ) * 100 ∧
      ((mx - x : Nat) : ℚ) / (mx : ℚ) * 100 ≤ 100 := by
  have hmx' : (0 : ℚ) < (mx : ℚ) := by
    have : 0 < mx := Nat.pos_of_ne_zero hmx
    exact_mod_cast this
  constructor
  · positivity
  · have hle : ((mx - x : Nat) : ℚ) ≤ (mx : ℚ) := by
      have : mx - x ≤ mx := Nat.sub_le mx x
      exact_mod_cast this
    have h1 : ((mx - x : Nat) : ℚ) / (mx : ℚ) ≤ 1 := by
      rw [div_le_one hmx']
      exact hle
    nlinarith

theorem levenshtein_similarity_bounds (s t : Str) (md : Option Nat) :
    0 ≤ levenshtein_similarity s t md ∧ levenshtein_similarity s t md ≤ 100 := by
  simp only [levenshtein_similarity]
  split
  · norm_num
  · rename_i hmx
    split
    · norm_num
    · exact percentQ_bounds _ _ hmx

theorem hybrid_bounds (s t : Str) :
    0 ≤ hybrid_similarity s t ∧ hybrid_similarity s t ≤ 100 := by
  simp only [hybrid_similarity]
  split
  · exact jaccard_bounds s t
  · rename_i hjac
    split
    · split
      · norm_num
      · have hmx : max (strLen s) (strLen t) ≠ 0 := by
          intro h0
          have hs : s = [] := strLen_eq_zero.1 (by omega)
          have ht : t = [] := strLen_eq_zero.1 (by omega)
          subst hs
          subst ht
          have hj0 : jaccard_similarity [] [] = 0 := by decide
          exact hjac (by rw [hj0]; norm_num)
        exact percentQ_bounds _ _ hmx
    · exact ngram_bounds s t 3

theorem calculate_similarity_bounds (s t : Str) (m : SimilarityMethod) :
    0 ≤ calculate_similarity s t m ∧ calculate_similarity s t m ≤ 100 := by
  cases m with
  | Jaccard => exact jaccard_bounds s t
  | Ngram => exact ngram_bounds s t 3
  | Levenshtein => exact levenshtein_similarity_bounds s t none
  | Hybrid => exact hybrid_bounds s t

/-! ## Characterizing the comparison fan-out -/

theorem levenshtein_distance_none_le (s t : Str) :
    levenshtein_distance s t none ≤ max (strLen s) (strLen t) := by
  rw [levenshtein_distance_none]
  exact le_trans (levSpec_le_max s t)
    (max_le_max (length_le_strLen s) (length_le_strLen t))

theorem comparisonStep_eq_some {src : Str} {method : SimilarityMethod} {T : ℚ}
    {p : Nat × Str} {q : Nat × ℚ} :
    comparisonStep src method T p = some q ↔
      pre_filter_by_length src p.2 T = true ∧
        q = (p.1, calculate_similarity src p.2 method) ∧
        T ≤ calculate_similarity src p.2 method := by
  simp only [comparisonStep]
  split
  · rename_i hpre
    split
    · rename_i hT
      simp only [hpre, hT, Option.some.injEq, true_and, and_true]
      exact eq_comm
    · rename_i hT
      simp [hT]
  · rename_i hpre
    simp only [Bool.not_eq_true] at hpre
    simp [hpre]

/-- Membership in the output of the fan-out, characterized exactly. -/
theorem compare_mem_characterization {src : Str} {targets : List Str}
    {method : SimilarityMethod} {T : ℚ} {i : Nat} {p : ℚ} :
    (i, p) ∈ compare_with_documents src targets method T ↔
      ∃ tgt, targets[i]? = some tgt ∧
        pre_filter_by_length src tgt T = true ∧
        p = calculate_similarity src tgt method ∧
        T ≤ calculate_similarity src tgt method := by
  unfold compare_with_documents
  rw [List.mem_filterMap]
  constructor
  · rintro ⟨⟨j, tgt⟩, hmem, hstep⟩
    rw [comparisonStep_eq_some] at hstep
    obtain ⟨hpre, heq, hT⟩ := hstep
    have hij : i = j ∧ p = calculate_similarity src tgt method := by
      have := Prod.mk.injEq i p j (calculate_similarity src tgt method) ▸ heq
      exact ⟨this.1, this.2⟩
    obtain ⟨rfl, rfl⟩ := hij
    exact ⟨tgt, List.mk_mem_enum_iff_getElem?.1 hmem, hpre, rfl, hT⟩
  · rintro ⟨tgt, hget, hpre, hp, hT⟩
    refine ⟨(i, tgt), List.mk_mem_enum_iff_getElem?.2 hget, ?_⟩
    rw [comparisonStep_eq_some]
    exact ⟨hpre, by rw [hp], hT⟩

/-! ## Self-comparison lemmas -/

theorem levenshtein_distance_self (a : Str) : levenshtein_distance a a none = 0 := by
  rw [levenshtein_distance_none, levSpec_self]

theorem levenshtein_similarity_self (a : Str) :
    levenshtein_similarity a a none = 100 := by
  simp only [levenshtein_similarity]
  split
  · rfl
  · rename_i hmx
    rw [levenshtein_distance_self]
    simp only [exceedsBudget]
    rw [if_neg Bool.false_ne_true, Nat.sub_zero,
      div_self (by exact_mod_cast hmx)]
    norm_num

theorem hybrid_self {a : Str} (hw : splitWS a ≠ [])
    (hn : 3 ≤ (normalizeText a).length) : hybrid_similarity a a = 100 := by
  have hj : jaccard_similarity a a = 100 := jaccard_self hw
  have hane : a ≠ [] := by
    intro h0
    subst h0
    exact hw rfl
  have hmx : max (strLen a) (strLen a) ≠ 0 := by
    have := strLen_pos hane
    omega
  simp only [hybrid_similarity]
  rw [if_neg (by rw [hj]; norm_num)]
  split
  · have hd : levenshtein_distance a a
        (some (max (strLen a) (strLen a) * 4 / 5)) = 0 := by
      rw [levenshtein_distance_budget_le a a _ (by rw [levSpec_self]; omega),
        levSpec_self]
    rw [hd, if_neg (by omega), Nat.sub_zero, div_self (by exact_mod_cast hmx)]
    norm_num
  · exact ngram_self (by omega) hn

/-- Evaluation helper for concrete Jaccard scores. -/
theorem jaccard_eval {s t : Str} {i u : Nat}
    (hi : (((splitWS s).map lowercase).toFinset ∩
      ((splitWS t).map lowercase).toFinset).card = i)
    (hu : (((splitWS s).map lowercase).toFinset ∪
      ((splitWS t).map lowercase).toFinset).card = u)
    (hu0 : u ≠ 0) :
    jaccard_similarity s t = (i : ℚ) / (u : ℚ) * 100 := by
  simp only [jaccard_similarity, hi, hu, if_neg hu0]

/-- C7 counterexample: the empty text compared with itself scores `0`, not
`100`, under the Jaccard method (its word set is empty, so the union is
empty and the scorer's explicit edge case yields `0`). -/
theorem self_similarity_empty_not_hundred :
    calculate_similarity [] [] SimilarityMethod.Jaccard ≠ 100 := by decide

/-- C7 (amended): for every text `a`, `levenshtein_distance a a none = 0`
and the Levenshtein self-similarity is `100`; and whenever the normalized
(lowercased, whitespace-collapsed) form of `a` has at least 3 characters,
the self-similarity is `100` under every method. -/
theorem self_similarity (a : Str) :
    levenshtein_distance a a none = 0 ∧
      calculate_similarity a a SimilarityMethod.Levenshtein = 100 ∧
      (3 ≤ (normalizeText a).length →
        ∀ m, calculate_similarity a a m = 100) := by
  refine ⟨levenshtein_distance_self a, levenshtein_similarity_self a, ?_⟩
  intro hn m
  have hnne : normalizeText a ≠ [] := by
    intro h0
    rw [h0] at hn
    simp at hn
  obtain ⟨c, hc, hcw⟩ := exists_nonws_of_normalize hnne
  have hw : splitWS a ≠ [] := splitWS_ne_nil hc hcw
  cases m with
  | Jaccard => exact jaccard_self hw
  | Ngram => exact ngram_self (by omega) hn
  | Levenshtein => exact levenshtein_similarity_self a
  | Hybrid => exact hybrid_self hw hn

/-- C7 witness: a concrete instantiation of `self_similarity`. -/
theorem self_similarity_witness :
    levenshtein_distance ['a', 'b', 'c'] ['a', 'b', 'c'] none = 0 ∧
      calculate_similarity ['a', 'b', 'c'] ['a', 'b', 'c']
        SimilarityMethod.Hybrid = 100 :=
  ⟨(self_similarity ['a', 'b', 'c']).1,
    (self_similarity ['a', 'b', 'c']).2.2 (by decide) SimilarityMethod.Hybrid⟩

/-- C8 counterexample: a text of raw length `4 ≥ 3` whose normalized form
has only 2 characters scores `0`, not `100`, against itself with trigrams:
leading spaces are collapsed away by the normalization. -/
theorem ngram_self_whitespace_not_hundred :
    3 ≤ ([' ', ' ', 'a', 'b'] : Str).length ∧
      ngram_similarity [' ', ' ', 'a', 'b'] [' ', ' ', 'a', 'b'] 3 = 0 :=
  ⟨by decide, by decide⟩

/-- C8 (amended): for `n ≥ 1`, `ngram_similarity s s n = 100` whenever the
normalized form of `s` has at least `n` characters, and
`ngram_similarity s t n = 0` whenever the normalized form of `s` or of `t`
has fewer than `n` characters. -/
theorem ngram_self_and_short (s t : Str) (n : Nat) (h1 : 1 ≤ n) :
    (n ≤ (normalizeText s).length → ngram_similarity s s n = 100) ∧
      ((normalizeText s).length < n ∨ (normalizeText t).length < n →
        ngram_similarity s t n = 0) :=
  ⟨fun h2 => ngram_self h1 h2, fun h => ngram_zero_of_short h⟩

/-- C8 witness: concrete instantiations of both halves of
`ngram_self_and_short`. -/
theorem ngram_self_and_short_witness :
    ngram_similarity ['a', 'b', 'c'] ['a', 'b', 'c'] 3 = 100 ∧
      ngram_similarity ['a', 'b', 'c'] ['x'] 3 = 0 :=
  ⟨(ngram_self_and_short ['a', 'b', 'c'] ['a', 'b', 'c'] 3 (by decide)).1 (by decide),
    (ngram_self_and_short ['a', 'b', 'c'] ['x'] 3 (by decide)).2 (Or.inr (by decide))⟩

/-! ## Budgeted Levenshtein: exactness and sentinel handling -/

/-- C10: a budgeted Levenshtein result within budget is exact — if
`levenshtein_distance s t (some b) ≤ b` then it equals the unbudgeted
distance; the early-termination path only ever returns `b + 1`. -/
theorem budgeted_distance_exact (s t : Str) (b : Nat) :
    (levenshtein_distance s t (some b) = levenshtein_distance s t none ∨
      levenshtein_distance s t (some b) = b + 1) ∧
      (levenshtein_distance s t (some b) ≤ b →
        levenshtein_distance s t (some b) = levenshtein_distance s t none) := by
  refine ⟨levenshtein_distance_budget_or s t b, fun hle => ?_⟩
  rcases levenshtein_distance_budget_or s t b with h | h
  · exact h
  · omega

/-- C10 witness: `kitten`/`sitting` with budget 3 is exact. -/
theorem budgeted_distance_exact_witness :
    levenshtein_distance ['k', 'i', 't', 't', 'e', 'n']
        ['s', 'i', 't', 't', 'i', 'n', 'g'] (some 3) =
      levenshtein_distance ['k', 'i', 't', 't', 'e', 'n']
        ['s', 'i', 't', 't', 'i', 'n', 'g'] none :=
  (budgeted_distance_exact ['k', 'i', 't', 't', 'e', 'n']
    ['s', 'i', 't', 't', 'i', 'n', 'g'] 3).2 (by decide)

/-- C4: when the true distance exceeds the budget `b`, the budgeted
Levenshtein similarity is forced to `0`, and (under the conditions that
put `hybrid_similarity` in its small-text Levenshtein branch with budget
`b`) the hybrid scorer returns the fixed fallback `20`; the `b + 1`
sentinel is never converted into a percentage. -/
theorem budget_exceeded_fallback (s t : Str) (b : Nat)
    (h : b < levenshtein_distance s t none) :
    levenshtein_similarity s t (some b) = 0 ∧
      (20 ≤ jaccard_similarity s t → strLen s < 1000 → strLen t < 1000 →
        b = max (strLen s) (strLen t) * 4 / 5 → hybrid_similarity s t = 20) := by
  have hgt : b < levenshtein_distance s t (some b) := by
    rcases levenshtein_distance_budget_or s t b with h' | h' <;> omega
  constructor
  · simp only [levenshtein_similarity]
    split
    · rename_i hmx
      have hs : s = [] := strLen_eq_zero.1 (by omega)
      have ht : t = [] := strLen_eq_zero.1 (by omega)
      subst hs
      subst ht
      have h0 : levenshtein_distance ([] : Str) [] none = 0 := by decide
      omega
    · rw [if_pos (by simp only [exceedsBudget]; exact decide_eq_true hgt)]
  · intro hjac hs ht hb
    simp only [hybrid_similarity]
    rw [if_neg (not_lt.2 hjac), if_pos (show strLen s < 1000 ∧ strLen t < 1000 from ⟨hs, ht⟩)]
    rw [if_pos (by rw [← hb]; exact hgt)]

/-- C4 witness: `"a bbbbbbbbb"` vs `"a ccccccccc"` (distance 9, budget 8,
shared word keeps Jaccard at 100/3 ≥ 20). -/
theorem budget_exceeded_fallback_witness :
    levenshtein_similarity
        ['a', ' ', 'b', 'b', 'b', 'b', 'b', 'b', 'b', 'b', 'b']
        ['a', ' ', 'c', 'c', 'c', 'c', 'c', 'c', 'c', 'c', 'c'] (some 8) = 0 ∧
      hybrid_similarity
        ['a', ' ', 'b', 'b', 'b', 'b', 'b', 'b', 'b', 'b', 'b']
        ['a', ' ', 'c', 'c', 'c', 'c', 'c', 'c', 'c', 'c', 'c'] = 20 := by
  have h := budget_exceeded_fallback
    ['a', ' ', 'b', 'b', 'b', 'b', 'b', 'b', 'b', 'b', 'b']
    ['a', ' ', 'c', 'c', 'c', 'c', 'c', 'c', 'c', 'c', 'c'] 8 (by decide)
  refine ⟨h.1, h.2 ?_ (by decide) (by decide) (by decide)⟩
  have hj := @jaccard_eval ['a', ' ', 'b', 'b', 'b', 'b', 'b', 'b', 'b', 'b', 'b']
    ['a', ' ', 'c', 'c', 'c', 'c', 'c', 'c', 'c', 'c', 'c']
    1 3 (by decide) (by decide) (by decide)
  rw [hj]
  norm_num

/-! ## Hybrid vs. unbudgeted Levenshtein, and the length unit -/

/-- C3 counterexample: both texts empty satisfy the claim's hypotheses
(byte lengths `< 1000`, true distance `0 ≤ 0.8 · 0`), yet
`hybrid_similarity` follows the Jaccard fast path to `0` while the
unbudgeted Levenshtein similarity is `100`. -/
theorem hybrid_ne_unbudgeted_empty :
    strLen ([] : Str) < 1000 ∧
      (levenshtein_distance ([] : Str) [] none : ℚ) ≤
        4 / 5 * ((max (strLen ([] : Str)) (strLen ([] : Str)) : Nat) : ℚ) ∧
      hybrid_similarity [] [] ≠ levenshtein_similarity [] [] none := by
  refine ⟨by decide, ?_, ?_⟩
  · have h0 : levenshtein_distance ([] : Str) [] none = 0 := by decide
    have h1 : strLen ([] : Str) = 0 := rfl
    rw [h0, h1]
    norm_num
  · have h1 : hybrid_similarity [] [] = 0 := by decide
    have h2 : levenshtein_similarity [] [] none = 100 := by decide
    rw [h1, h2]
    norm_num

/-- C3 (amended): for texts of byte length `< 1000` whose Jaccard
similarity reaches the 20-point fast-path bar and whose true (unbudgeted)
edit distance is at most `0.8` of the longer byte length,
`hybrid_similarity` equals the exact, unbudgeted `levenshtein_similarity`. -/
theorem hybrid_eq_unbudgeted (s t : Str)
    (hj : 20 ≤ jaccard_similarity s t)
    (hs : strLen s < 1000) (ht : strLen t < 1000)
    (hd : (levenshtein_distance s t none : ℚ) ≤
      4 / 5 * ((max (strLen s) (strLen t) : Nat) : ℚ)) :
    hybrid_similarity s t = levenshtein_similarity s t none := by
  have hmx : max (strLen s) (strLen t) ≠ 0 := by
    intro h0
    have hs0 : s = [] := strLen_eq_zero.1 (by omega)
    have ht0 : t = [] := strLen_eq_zero.1 (by omega)
    subst hs0
    subst ht0
    have hj0 : jaccard_similarity [] [] = 0 := by decide
    rw [hj0] at hj
    norm_num at hj
  have hdN : levenshtein_distance s t none * 5 ≤ max (strLen s) (strLen t) * 4 := by
    have h5 : ((levenshtein_distance s t none * 5 : Nat) : ℚ)
        ≤ ((max (strLen s) (strLen t) * 4 : Nat) : ℚ) := by
      have hd' := hd
      push_cast at hd' ⊢
      linarith
    exact_mod_cast h5
  have hbud : levenshtein_distance s t none ≤ max (strLen s) (strLen t) * 4 / 5 :=
    (Nat.le_div_iff_mul_le (by norm_num)).2 hdN
  have hexact : levenshtein_distance s t (some (max (strLen s) (strLen t) * 4 / 5))
      = levenshtein_distance s t none := by
    rw [levenshtein_distance_none]
    exact levenshtein_distance_budget_le s t _
      (by rw [← levenshtein_distance_none]; exact hbud)
  simp only [hybrid_similarity, levenshtein_similarity, exceedsBudget]
  rw [if_neg (not_lt.2 hj),
    if_pos (show strLen s < 1000 ∧ strLen t < 1000 from ⟨hs, ht⟩),
    hexact,
    if_neg (show ¬ max (strLen s) (strLen t) * 4 / 5 <
      levenshtein_distance s t none by omega),
    if_neg hmx, if_neg Bool.false_ne_true]

/-- C3 witness: `"ab cd"` vs `"ab ce"` (shared word, distance 1 within the
budget). -/
theorem hybrid_eq_unbudgeted_witness :
    hybrid_similarity ['a', 'b', ' ', 'c', 'd'] ['a', 'b', ' ', 'c', 'e'] =
      levenshtein_similarity ['a', 'b', ' ', 'c', 'd'] ['a', 'b', ' ', 'c', 'e'] none := by
  apply hybrid_eq_unbudgeted
  · have hj := @jaccard_eval ['a', 'b', ' ', 'c', 'd'] ['a', 'b', ' ', 'c', 'e']
      1 3 (by decide) (by decide) (by decide)
    rw [hj]
    norm_num
  · decide
  · decide
  · have h0 : levenshtein_distance ['a', 'b', ' ', 'c', 'd'] ['a', 'b', ' ', 'c', 'e'] none = 1 := by
      decide
    have h1 : max (strLen ['a', 'b', ' ', 'c', 'd']) (strLen ['a', 'b', ' ', 'c', 'e']) = 5 := by
      decide
    rw [h0, h1]
    norm_num

/-- The char-count percentage formula asserted by the specification claim:
denominator `max(character count of s, character count of t)`, distance
`levSpec` over Unicode characters. -/
def levSimCharSpec (s t : Str) : ℚ :=
  let maxLen := max s.length t.length
  if maxLen = 0 then 100
  else (((maxLen - levSpec s t : Nat) : ℚ) / (maxLen : ℚ)) * 100

/-- The percentage formula with the BYTE-length denominator the source
actually uses, over the specification-level character distance `levSpec`. -/
def levSimByteSpec (s t : Str) : ℚ :=
  let maxLen := max (strLen s) (strLen t)
  if maxLen = 0 then 100
  else (((maxLen - levSpec s t : Nat) : ℚ) / (maxLen : ℚ)) * 100

/-- C5 counterexample: on `"é"` vs `"a"` the implementation returns 50
(byte denominator 2, distance 1) while the claim's char-count formula
yields 0 (denominator 1). -/
theorem levenshtein_similarity_not_char_unit :
    levenshtein_similarity ['é'] ['a'] none ≠ levSimCharSpec ['é'] ['a'] := by
  have h1 : strLen ['é'] = 2 := by decide
  have h2 : strLen ['a'] = 1 := by decide
  have h3 : levenshtein_distance ['é'] ['a'] none = 1 := by decide
  have h4 : levSpec ['é'] ['a'] = 1 := by decide
  have h5 : max 2 1 = 2 := rfl
  have h6 : max 1 1 = 1 := rfl
  simp only [levenshtein_similarity, levSimCharSpec, exceedsBudget, h1, h2, h3, h4,
    List.length_cons, List.length_nil, Nat.zero_add, h5, h6]
  norm_num

/-- C5 (amended): `levenshtein_similarity` with no budget equals the
percentage formula with the BYTE length (not the character count) as the
denominator: `((maxLen - d) / maxLen) * 100` with `d` the Levenshtein
distance over Unicode characters and `maxLen` the maximum UTF-8 byte
length; both texts empty gives 100. -/
theorem levenshtein_similarity_byte_unit (s t : Str) :
    levenshtein_similarity s t none = levSimByteSpec s t := by
  simp only [levenshtein_similarity, levSimByteSpec, exceedsBudget,
    levenshtein_distance_none]
  split
  · rfl
  · rw [if_neg Bool.false_ne_true]

/-! ## Pre-filter soundness, ranges and the fan-out claims -/

/-- Concrete evaluation: the pre-filter accepts `"a"` vs `"a"` at 50. -/
theorem pre_filter_aa : pre_filter_by_length ['a'] ['a'] 50 = true := by
  have h1 : strLen ['a'] = 1 := by decide
  simp only [pre_filter_by_length, h1]
  rw [if_neg (by decide : ¬ max 1 1 = 0), decide_eq_true_eq]
  norm_num

/-- Concrete evaluation: Jaccard score of `"a"` against itself. -/
theorem calc_aa : calculate_similarity ['a'] ['a'] SimilarityMethod.Jaccard = 100 := by
  have hj := @jaccard_eval ['a'] ['a'] 1 1 (by decide) (by decide) (by decide)
  simp only [calculate_similarity, hj]
  norm_num

/-- C2 counterexample: with the Jaccard method on plain ASCII text the
pre-filter is unsound: `"a"` vs `"a a a a a a a a a a a a a a a a"` have
identical word sets (similarity 100 ≥ 50), yet the relative byte-length
gap `30/31 · 100` exceeds `100 - 50`, so the pair is rejected. -/
theorem preFilter_unsound_jaccard :
    pre_filter_by_length ['a']
        ['a', ' ', 'a', ' ', 'a', ' ', 'a', ' ', 'a', ' ', 'a', ' ', 'a', ' ',
          'a', ' ', 'a', ' ', 'a', ' ', 'a', ' ', 'a', ' ', 'a', ' ', 'a', ' ',
          'a', ' ', 'a'] 50 = false ∧
      (50 : ℚ) ≤ calculate_similarity ['a']
        ['a', ' ', 'a', ' ', 'a', ' ', 'a', ' ', 'a', ' ', 'a', ' ', 'a', ' ',
          'a', ' ', 'a', ' ', 'a', ' ', 'a', ' ', 'a', ' ', 'a', ' ', 'a', ' ',
          'a', ' ', 'a'] SimilarityMethod.Jaccard := by
  constructor
  · have h1 : strLen ['a'] = 1 := by decide
    have h2 : strLen ['a', ' ', 'a', ' ', 'a', ' ', 'a', ' ', 'a', ' ', 'a', ' ',
        'a', ' ', 'a', ' ', 'a', ' ', 'a', ' ', 'a', ' ', 'a', ' ', 'a', ' ',
        'a', ' ', 'a', ' ', 'a'] = 31 := by decide
    simp only [pre_filter_by_length, h1, h2]
    rw [if_neg (by decide : ¬ max 1 31 = 0)]
    rw [decide_eq_false_iff_not]
    have h3 : (((1 : Nat) : ℤ) - ((31 : Nat) : ℤ)).natAbs = 30 := by decide
    rw [h3]
    have h4 : max (1 : Nat) 31 = 31 := rfl
    rw [h4]
    norm_num
  · have hj := @jaccard_eval ['a']
      ['a', ' ', 'a', ' ', 'a', ' ', 'a', ' ', 'a', ' ', 'a', ' ', 'a', ' ',
        'a', ' ', 'a', ' ', 'a', ' ', 'a', ' ', 'a', ' ', 'a', ' ', 'a', ' ',
        'a', ' ', 'a'] 1 1 (by decide) (by decide) (by decide)
    simp only [calculate_similarity, hj]
    norm_num

/-- C2 (amended): for the Levenshtein method on single-byte (ASCII) texts
the length pre-filter is sound: if the exact Levenshtein similarity
reaches the threshold, the pre-filter passes the pair. -/
theorem preFilter_sound_levenshtein (s t : Str) (T : ℚ)
    (hs : ∀ c ∈ s, c.utf8Size = 1) (ht : ∀ c ∈ t, c.utf8Size = 1)
    (h : T ≤ calculate_similarity s t SimilarityMethod.Levenshtein) :
    pre_filter_by_length s t T = true := by
  simp only [pre_filter_by_length]
  split
  · rfl
  · rename_i hmx
    rw [decide_eq_true_eq]
    simp only [calculate_similarity] at h
    rw [levenshtein_similarity_byte_unit] at h
    simp only [levSimByteSpec] at h
    rw [if_neg hmx] at h
    have hls : strLen s = s.length := strLen_of_ascii hs
    have hlt : strLen t = t.length := strLen_of_ascii ht
    have hd_le : levSpec s t ≤ max (strLen s) (strLen t) := by
      have := levSpec_le_max s t
      omega
    have hdiff : (((strLen s : ℤ) - (strLen t : ℤ)).natAbs) ≤ levSpec s t := by
      have := levSpec_ge_sub s t
      omega
    have hmxQ : (0 : ℚ) < ((max (strLen s) (strLen t) : Nat) : ℚ) := by
      exact_mod_cast Nat.pos_of_ne_zero hmx
    rw [div_mul_eq_mul_div, div_le_iff₀ hmxQ]
    rw [Nat.cast_sub hd_le, div_mul_eq_mul_div, le_div_iff₀ hmxQ] at h
    have hdiffQ : ((((strLen s : ℤ) - (strLen t : ℤ)).natAbs : Nat) : ℚ)
        ≤ ((levSpec s t : Nat) : ℚ) := by exact_mod_cast hdiff
    have hdleQ : ((levSpec s t : Nat) : ℚ) ≤ ((max (strLen s) (strLen t) : Nat) : ℚ) := by
      exact_mod_cast hd_le
    linarith

/-- C2 witness: `"ab"` vs `"ac"` at threshold 50. -/
theorem preFilter_sound_levenshtein_witness :
    pre_filter_by_length ['a', 'b'] ['a', 'c'] 50 = true := by
  apply preFilter_sound_levenshtein ['a', 'b'] ['a', 'c'] 50 (by decide) (by decide)
  simp only [calculate_similarity]
  rw [levenshtein_similarity_byte_unit]
  simp only [levSimByteSpec]
  have h1 : strLen ['a', 'b'] = 2 := by decide
  have h2 : strLen ['a', 'c'] = 2 := by decide
  have h3 : levSpec ['a', 'b'] ['a', 'c'] = 1 := by decide
  rw [h1, h2, h3]
  have h4 : max (2 : Nat) 2 = 2 := rfl
  rw [h4, if_neg (by decide : ¬ (2 : Nat) = 0)]
  norm_num

/-- C1: `compare_with_documents` returns exactly the set of pairs
`(i, p)` such that the `i`-th reference passes the length pre-filter
against the source at the threshold and `p` is its similarity under the
requested method with `p ≥ threshold` (inclusive); `i` is the position of
the reference in the input list. -/
theorem compare_exact_set (src : Str) (targets : List Str)
    (method : SimilarityMethod) (T : ℚ) (i : Nat) (p : ℚ) :
    (i, p) ∈ compare_with_documents src targets method T ↔
      ∃ tgt, targets[i]? = some tgt ∧
        pre_filter_by_length src tgt T = true ∧
        p = calculate_similarity src tgt method ∧ T ≤ p := by
  rw [compare_mem_characterization]
  constructor
  · rintro ⟨tgt, h1, h2, rfl, h4⟩
    exact ⟨tgt, h1, h2, rfl, h4⟩
  · rintro ⟨tgt, h1, h2, rfl, h4⟩
    exact ⟨tgt, h1, h2, rfl, h4⟩

/-- C1 witness: `"a"` against the one-element corpus `["a"]`. -/
theorem compare_exact_set_witness :
    (0, (100 : ℚ)) ∈
      compare_with_documents ['a'] [['a']] SimilarityMethod.Jaccard 50 :=
  (compare_exact_set ['a'] [['a']] SimilarityMethod.Jaccard 50 0 100).2
    ⟨['a'], rfl, pre_filter_aa, calc_aa.symm, by norm_num⟩

/-- C6: every similarity result is a percentage in `[0, 100]` — each
scorer, the dispatcher, and every entry collected by the fan-out — and the
`max_length - distance` subtraction never underflows: whenever the
percentage conversion is reached (no budget, or a budgeted result within
budget), the distance is at most the byte-length maximum. -/
theorem similarity_in_range (s t : Str) (n : Nat) (md : Option Nat)
    (method : SimilarityMethod) (src : Str) (targets : List Str) (T : ℚ)
    (i : Nat) (p : ℚ) :
    (0 ≤ jaccard_similarity s t ∧ jaccard_similarity s t ≤ 100) ∧
      (0 ≤ ngram_similarity s t n ∧ ngram_similarity s t n ≤ 100) ∧
      (0 ≤ levenshtein_similarity s t md ∧ levenshtein_similarity s t md ≤ 100) ∧
      (0 ≤ hybrid_similarity s t ∧ hybrid_similarity s t ≤ 100) ∧
      (0 ≤ calculate_similarity s t method ∧ calculate_similarity s t method ≤ 100) ∧
      ((i, p) ∈ compare_with_documents src targets method T → 0 ≤ p ∧ p ≤ 100) ∧
      levenshtein_distance s t none ≤ max (strLen s) (strLen t) ∧
      (∀ m, levenshtein_distance s t (some m) ≤ m →
        levenshtein_distance s t (some m) ≤ max (strLen s) (strLen t)) := by
  refine ⟨jaccard_bounds s t, ngram_bounds s t n,
    levenshtein_similarity_bounds s t md, hybrid_bounds s t,
    calculate_similarity_bounds s t method, ?_,
    levenshtein_distance_none_le s t, ?_⟩
  · intro hmem
    obtain ⟨tgt, _, _, hp, _⟩ := compare_mem_characterization.1 hmem
    rw [hp]
    exact calculate_similarity_bounds src tgt method
  · intro m hle
    rcases levenshtein_distance_budget_or s t m with h | h
    · rw [h]
      exact levenshtein_distance_none_le s t
    · omega

/-- C6 witness: the fan-out entry bound and the budgeted no-underflow
bound at concrete inputs. -/
theorem similarity_in_range_witness :
    (0 ≤ (100 : ℚ) ∧ (100 : ℚ) ≤ 100) ∧
      levenshtein_distance ['a'] ['b'] (some 5) ≤
        max (strLen ['a']) (strLen ['b']) := by
  have h := similarity_in_range ['a'] ['b'] 3 none SimilarityMethod.Jaccard
    ['a'] [['a']] 50 0 100
  refine ⟨h.2.2.2.2.2.1 ?_, h.2.2.2.2.2.2.2 5 (by decide)⟩
  exact compare_mem_characterization.2
    ⟨['a'], rfl, pre_filter_aa, calc_aa.symm, by rw [calc_aa]; norm_num⟩

/-- C9: the per-reference pipeline is a pure function of the enumerated
input, so processing the work list in any order (any parallel schedule)
yields a permutation — in particular the same set — of the results that
`compare_with_documents` collects. -/
theorem compare_order_independent (src : Str) (targets : List Str)
    (method : SimilarityMethod) (T : ℚ) (l : List (Nat × Str))
    (h : l.Perm targets.enum) :
    (l.filterMap (comparisonStep src method T)).Perm
      (compare_with_documents src targets method T) := by
  unfold compare_with_documents
  exact h.filterMap (comparisonStep src method T)

/-- C9 witness: processing a two-reference corpus in reversed order. -/
theorem compare_order_independent_witness :
    (([(1, ['b']), (0, ['a'])] : List (Nat × Str)).filterMap
        (comparisonStep ['a'] SimilarityMethod.Jaccard 50)).Perm
      (compare_with_documents ['a'] [['a'], ['b']] SimilarityMethod.Jaccard 50) :=
  compare_order_independent ['a'] [['a'], ['b']] SimilarityMethod.Jaccard 50
    [(1, ['b']), (0, ['a'])] (by decide)
